import Mathlib

/-!
Shallow embedding of `src/deadlock_simulation.py`: the `BankersAlgorithm`
class (deadlock avoidance via the Banker's algorithm) and the
`ResourceAllocationGraph` class (deadlock detection via cycle search).

Python/numpy integers are modelled as `Int` (values stay far from the
int64 range in every scenario considered), numpy vectors and matrices as
`List Int` / `List (List Int)`, and in-place mutation of the class
attributes as explicit state passing on a structure.
-/

/-- Elementwise vector sum, modelling `a + b` on equal-length numpy int arrays. -/
def vecAdd (a b : List Int) : List Int := List.zipWith (· + ·) a b

/-- Elementwise vector difference, modelling `a - b` on equal-length numpy int arrays. -/
def vecSub (a b : List Int) : List Int := List.zipWith (· - ·) a b

/-- Models `np.any(a > b)` for equal-length int vectors. -/
def anyGt (a b : List Int) : Bool := (List.zipWith (fun x y => decide (x > y)) a b).any id

/-- Models `np.all(a <= b)` for equal-length int vectors. -/
def allLe (a b : List Int) : Bool := (List.zipWith (fun x y => decide (x ≤ y)) a b).all id

/-- State of a `BankersAlgorithm` object: the two dimensions fixed by
`__init__` and the four numpy matrices held as attributes. -/
structure BankersAlgorithm where
  n_processes : Nat
  n_resources : Nat
  available : List Int
  max_claim : List (List Int)
  allocation : List (List Int)
  need : List (List Int)
deriving Repr, DecidableEq

namespace BankersAlgorithm

/-- `__init__(processes, resources)`: all four matrices start as zeros. -/
def init (processes resources : Nat) : BankersAlgorithm :=
  ⟨processes, resources,
   List.replicate resources 0,
   List.replicate processes (List.replicate resources 0),
   List.replicate processes (List.replicate resources 0),
   List.replicate processes (List.replicate resources 0)⟩

/-- `_update_need`: `self.need = self.max_claim - self.allocation`. -/
def update_need : BankersAlgorithm → BankersAlgorithm
  | ⟨n, m, av, mc, al, _⟩ => ⟨n, m, av, mc, al, List.zipWith vecSub mc al⟩

/-- `set_available`: replaces `self.available` unconditionally. -/
def set_available : BankersAlgorithm → List Int → BankersAlgorithm
  | ⟨n, m, _, mc, al, nd⟩, v => ⟨n, m, v, mc, al, nd⟩

/-- `set_max_claim`: replaces `self.max_claim` and recomputes `need`. -/
def set_max_claim (s : BankersAlgorithm) (mc : List (List Int)) : BankersAlgorithm :=
  match s with
  | ⟨n, m, av, _, al, nd⟩ => update_need ⟨n, m, av, mc, al, nd⟩

/-- `set_allocation`: replaces `self.allocation` and recomputes `need`. -/
def set_allocation (s : BankersAlgorithm) (al : List (List Int)) : BankersAlgorithm :=
  match s with
  | ⟨n, m, av, mc, _, nd⟩ => update_need ⟨n, m, av, mc, al, nd⟩

/-- `_temporarily_allocate(process_id, request)`. -/
def temporarily_allocate : BankersAlgorithm → Nat → List Int → BankersAlgorithm
  | ⟨n, m, av, mc, al, nd⟩, pid, req =>
    ⟨n, m, vecSub av req, mc,
     al.set pid (vecAdd (al.getD pid []) req),
     nd.set pid (vecSub (nd.getD pid []) req)⟩

/-- `_rollback_allocation(process_id, request)`. -/
def rollback_allocation : BankersAlgorithm → Nat → List Int → BankersAlgorithm
  | ⟨n, m, av, mc, al, nd⟩, pid, req =>
    ⟨n, m, vecAdd av req, mc,
     al.set pid (vecSub (al.getD pid []) req),
     nd.set pid (vecAdd (nd.getD pid []) req)⟩

/-- The inner `for i in range(self.n_processes)` scan of `is_safe`: the first
index `i` (counting `k` indices starting at `i`) with `not finish[i]` and
`np.all(self.need[i] <= work)`, if any. -/
def findProcAux (need : List (List Int)) (work : List Int) (finish : List Bool) :
    Nat → Nat → Option Nat
  | _, 0 => none
  | i, Nat.succ k =>
    if !(finish.getD i true) && allLe (need.getD i []) work then some i
    else findProcAux need work finish (i + 1) k

/-- The `while found` loop of `is_safe`, with fuel bounding the number of
processes that can be finished (each success flips one `finish` bit). -/
def safetyLoop (s : BankersAlgorithm) :
    Nat → List Int → List Bool → List Nat → List Bool × List Nat
  | 0, _, finish, seqRev => (finish, seqRev.reverse)
  | Nat.succ fuel, work, finish, seqRev =>
    match findProcAux s.need work finish 0 s.n_processes with
    | none => (finish, seqRev.reverse)
    | some i =>
      safetyLoop s fuel (vecAdd work (s.allocation.getD i []))
        (finish.set i true) (i :: seqRev)

/-- Runs the safety algorithm of `is_safe` from `work = available.copy()` and
all processes unfinished, returning the final `finish` vector and the
`safe_sequence` list it accumulates. -/
def safety (s : BankersAlgorithm) : List Bool × List Nat :=
  safetyLoop s s.n_processes s.available (List.replicate s.n_processes false) []

/-- `is_safe`: `np.all(finish)` after the scan loop. -/
def is_safe (s : BankersAlgorithm) : Bool := (safety s).1.all id

/-- The `safe_sequence` list that `is_safe` builds and prints. -/
def safe_sequence (s : BankersAlgorithm) : List Nat := (safety s).2

/-- `request_resources(process_id, request)`: the returned bool paired with
the post-call object state. -/
def request_resources (s : BankersAlgorithm) (pid : Nat) (req : List Int) :
    Bool × BankersAlgorithm :=
  if anyGt req (s.need.getD pid []) then (false, s)
  else if anyGt req s.available then (false, s)
  else
    let s1 := temporarily_allocate s pid req
    if is_safe s1 then (true, s1)
    else (false, rollback_allocation s1 pid req)

end BankersAlgorithm

/-- Edge attribute `type` of the networkx digraph used by
`ResourceAllocationGraph`. -/
inductive EdgeType where
  | request
  | allocation
deriving Repr, DecidableEq

/-- State of a `ResourceAllocationGraph` object: the networkx digraph (node
insertion order and typed edge list), the `processes` and `resources` sets
(as duplicate-free lists), and the two resource dictionaries. -/
structure ResourceAllocationGraph (α : Type) where
  nodes : List α
  edges : List (α × α × EdgeType)
  processes : List α
  resources : List α
  resource_instances : List (α × Int)
  resource_allocations : List (α × List α)
deriving Repr, DecidableEq

/-- Appends `x` unless already present: models adding to a python set, and
`graph.add_node` on the insertion-ordered node dict. -/
def insertNew {α : Type} [DecidableEq α] (l : List α) (x : α) : List α :=
  if x ∈ l then l else l ++ [x]

/-- Models `d[k] = v` on a python dict: replace the binding if the key is
present, otherwise append it. -/
def setAssoc {α β : Type} [DecidableEq α] : List (α × β) → α → β → List (α × β)
  | [], k, v => [(k, v)]
  | (k0, v0) :: rest, k, v =>
    if k0 = k then (k, v) :: rest else (k0, v0) :: setAssoc rest k v

/-- Models mutating `d[k]` in place on a python dict (`d[k].append(...)`);
a no-op when the key is absent (all reachable graph states have the key for
every registered resource). -/
def updateAssoc {α β : Type} [DecidableEq α] (f : β → β) :
    List (α × β) → α → List (α × β)
  | [], _ => []
  | (k0, v0) :: rest, k =>
    if k0 = k then (k0, f v0) :: rest else (k0, v0) :: updateAssoc f rest k

/-- Models `graph.add_edge(u, v, type=t)`: overwrite the attribute if the
edge exists, else append the edge. -/
def addEdge {α : Type} [DecidableEq α] :
    List (α × α × EdgeType) → α → α → EdgeType → List (α × α × EdgeType)
  | [], u, v, t => [(u, v, t)]
  | (a, b, t0) :: rest, u, v, t =>
    if a = u ∧ b = v then (u, v, t) :: rest
    else (a, b, t0) :: addEdge rest u v t

namespace ResourceAllocationGraph

variable {α : Type} [DecidableEq α]

/-- `__init__`: empty graph. -/
def empty : ResourceAllocationGraph α := ⟨[], [], [], [], [], []⟩

/-- `add_process(process)`. -/
def add_process : ResourceAllocationGraph α → α → ResourceAllocationGraph α
  | ⟨ns, es, ps, rs, ri, ra⟩, p =>
    ⟨insertNew ns p, es, insertNew ps p, rs, ri, ra⟩

/-- `add_resource(resource, instances)` (`instances` defaults to 1 at the
python call sites that omit it). -/
def add_resource : ResourceAllocationGraph α → α → Int → ResourceAllocationGraph α
  | ⟨ns, es, ps, rs, ri, ra⟩, r, instances =>
    ⟨insertNew ns r, es, ps, insertNew rs r,
     setAssoc ri r instances, setAssoc ra r []⟩

/-- `request_edge(process, resource)`: auto-registers missing endpoints,
then adds the typed edge. -/
def request_edge (g : ResourceAllocationGraph α) (p r : α) :
    ResourceAllocationGraph α :=
  let g1 := if p ∈ g.processes then g else add_process g p
  let g2 := if r ∈ g1.resources then g1 else add_resource g1 r 1
  ⟨g2.nodes, addEdge g2.edges p r EdgeType.request, g2.processes, g2.resources,
   g2.resource_instances, g2.resource_allocations⟩

/-- `allocation_edge(resource, process)`: auto-registers missing endpoints,
adds the typed edge, and appends to `resource_allocations[resource]`. -/
def allocation_edge (g : ResourceAllocationGraph α) (r p : α) :
    ResourceAllocationGraph α :=
  let g1 := if p ∈ g.processes then g else add_process g p
  let g2 := if r ∈ g1.resources then g1 else add_resource g1 r 1
  ⟨g2.nodes, addEdge g2.edges r p EdgeType.allocation, g2.processes, g2.resources,
   g2.resource_instances, updateAssoc (fun l => l ++ [p]) g2.resource_allocations r⟩

/-- The attribute of the digraph edge `u → v`, if the edge exists. -/
def edgeType (g : ResourceAllocationGraph α) (u v : α) : Option EdgeType :=
  (g.edges.find? (fun e => decide (e.1 = u) && decide (e.2.1 = v))).map (·.2.2)

/-- Successors of `u` in the digraph, in edge insertion order. -/
def adjList (g : ResourceAllocationGraph α) (u : α) : List α :=
  g.edges.filterMap (fun e => if e.1 = u then some e.2.1 else none)

/-- Depth-first enumeration of the simple cycles through start node `s`
whose other nodes all satisfy `!low`: `pathRev` is the reversed simple path
from `s` to the current node `u`.  Models the cycle enumeration of
`nx.simple_cycles`, which yields each simple cycle of the digraph exactly
once (here canonically rooted at its node of least insertion index). -/
def cycleSearch (adjf : α → List α) (low : α → Bool) (s : α) :
    Nat → α → List α → List (List α)
  | 0, _, _ => []
  | Nat.succ fuel, u, pathRev =>
    (adjf u).flatMap (fun v =>
      if v = s then [pathRev.reverse]
      else if pathRev.contains v || low v then []
      else cycleSearch adjf low s fuel v (v :: pathRev))

/-- Runs `cycleSearch` from each node in insertion order, excluding nodes of
strictly smaller insertion index from each search. -/
def simpleCyclesAux (g : ResourceAllocationGraph α) : Nat → List α → List (List α)
  | _, [] => []
  | i, s :: rest =>
    cycleSearch (adjList g) (fun v => decide (g.nodes.indexOf v < i)) s
        g.nodes.length s [s]
      ++ simpleCyclesAux g (i + 1) rest

/-- Models `list(nx.simple_cycles(self.graph))`: every simple cycle of the
digraph, one rotation representative each. -/
def simpleCycles (g : ResourceAllocationGraph α) : List (List α) :=
  simpleCyclesAux g 0 g.nodes

/-- The alternation filter of `detect_deadlock`: for every consecutive pair
(cyclically), not (curr ∈ processes and next ∉ resources) and not
(curr ∈ resources and next ∉ processes). -/
def isAlternating (g : ResourceAllocationGraph α) (c : List α) : Bool :=
  (c.zip (c.drop 1 ++ c.take 1)).all (fun cn =>
    !(decide (cn.1 ∈ g.processes) && !(decide (cn.2 ∈ g.resources))) &&
    !(decide (cn.1 ∈ g.resources) && !(decide (cn.2 ∈ g.processes))))

/-- `detect_deadlock()`: `(len(deadlock_cycles) > 0, deadlock_cycles)`. -/
def detect_deadlock (g : ResourceAllocationGraph α) : Bool × List (List α) :=
  let deadlock_cycles := (simpleCycles g).filter (fun c => isAlternating g c)
  (decide (0 < deadlock_cycles.length), deadlock_cycles)

end ResourceAllocationGraph

/-- Number of allocation edges leaving resource `r` in the digraph. -/
def allocOutDegree {α : Type} [DecidableEq α]
    (g : ResourceAllocationGraph α) (r : α) : Nat :=
  (g.edges.filter (fun e => decide (e.1 = r) && decide (e.2.2 = EdgeType.allocation))).length

/-- The registered instance count of a resource (`resource_instances[r]`). -/
def instancesOf {α : Type} [DecidableEq α]
    (g : ResourceAllocationGraph α) (r : α) : Option Int :=
  (g.resource_instances.find? (fun kv => decide (kv.1 = r))).map (·.2)

/-- The list `resource_allocations[r]`, if the key is present. -/
def allocationsOf {α : Type} [DecidableEq α]
    (g : ResourceAllocationGraph α) (r : α) : Option (List α) :=
  (g.resource_allocations.find? (fun kv => decide (kv.1 = r))).map (·.2)

/-- Shape hypotheses under which a `request_resources(pid, req)` call runs
without a numpy broadcasting or indexing error: the request vector matches
the width of `available` and of the `pid` rows, and `pid` indexes a row. -/
abbrev reqWF (s : BankersAlgorithm) (pid : Nat) (req : List Int) : Prop :=
  s.available.length = req.length ∧
  (s.allocation.getD pid []).length = req.length ∧
  (s.need.getD pid []).length = req.length ∧
  pid < s.allocation.length ∧ pid < s.need.length

/-- A matrix has `n` rows of `m` entries each. -/
abbrev dimsWF (n m : Nat) (rows : List (List Int)) : Prop :=
  rows.length = n ∧ ∀ r ∈ rows, r.length = m

/-- All four ledger matrices have the shapes fixed at construction. -/
abbrev stateWF (s : BankersAlgorithm) : Prop :=
  s.available.length = s.n_resources ∧
  dimsWF s.n_processes s.n_resources s.max_claim ∧
  dimsWF s.n_processes s.n_resources s.allocation ∧
  dimsWF s.n_processes s.n_resources s.need

/-- The derived-need invariant: `need = max_claim - allocation` as matrices. -/
abbrev needInvariant (s : BankersAlgorithm) : Prop :=
  s.need = List.zipWith vecSub s.max_claim s.allocation

/-- One mutating call on a `BankersAlgorithm` object. -/
inductive BOp where
  | setMax (mc : List (List Int))
  | setAlloc (al : List (List Int))
  | request (pid : Nat) (req : List Int)
deriving Repr, DecidableEq

/-- Applies one call to the object state (for `request` the post-call state,
whether the request was granted or denied). -/
def applyOp (s : BankersAlgorithm) : BOp → BankersAlgorithm
  | BOp.setMax mc => BankersAlgorithm.set_max_claim s mc
  | BOp.setAlloc al => BankersAlgorithm.set_allocation s al
  | BOp.request pid req => (BankersAlgorithm.request_resources s pid req).2

/-- Runs a sequence of calls left to right. -/
def runOps (s : BankersAlgorithm) (ops : List BOp) : BankersAlgorithm :=
  ops.foldl applyOp s

/-- A call is well-shaped for dimensions `(n, m)` (python would raise on
shape mismatches through numpy broadcasting / indexing). -/
def opWF (n m : Nat) : BOp → Prop
  | BOp.setMax mc => dimsWF n m mc
  | BOp.setAlloc al => dimsWF n m al
  | BOp.request pid req => pid < n ∧ req.length = m

instance (n m : Nat) : DecidablePred (opWF n m) := fun op =>
  match op with
  | BOp.setMax mc => inferInstanceAs (Decidable (dimsWF n m mc))
  | BOp.setAlloc al => inferInstanceAs (Decidable (dimsWF n m al))
  | BOp.request pid req => inferInstanceAs (Decidable (pid < n ∧ req.length = m))

/-- Column total of resource `r`: `Σ_p allocation[p][r]`. -/
def colSum (rows : List (List Int)) (r : Nat) : Int :=
  (rows.map (fun row => row.getD r 0)).sum

/-- Structural sanity of a graph state (holds for every state reachable
through the class API): node insertion order is duplicate-free and every
registered process and resource is a digraph node. -/
abbrev RAGWF {α : Type} (g : ResourceAllocationGraph α) : Prop :=
  g.nodes.Nodup ∧ (∀ p ∈ g.processes, p ∈ g.nodes) ∧ (∀ r ∈ g.resources, r ∈ g.nodes)

/-- The classic 5-process, 3-resource textbook instance with
`available = [3,3,2]`. -/
def classicState : BankersAlgorithm :=
  BankersAlgorithm.set_allocation
    (BankersAlgorithm.set_max_claim
      (BankersAlgorithm.set_available (BankersAlgorithm.init 5 3) [3, 3, 2])
      [[7, 5, 3], [3, 2, 2], [9, 0, 2], [2, 2, 2], [4, 3, 3]])
    [[0, 1, 0], [2, 0, 0], [3, 0, 2], [2, 1, 1], [0, 0, 2]]

/-- The single-instance circular-wait scenario: P1..P4, R1..R4 with one
instance each, allocations R1→P1, R2→P2, R3→P3, R4→P4 and requests
P1→R2, P2→R3, P3→R4, P4→R1. -/
def circularWaitGraph : ResourceAllocationGraph String :=
  let g0 : ResourceAllocationGraph String := ResourceAllocationGraph.empty
  let g1 := ResourceAllocationGraph.add_process
    (ResourceAllocationGraph.add_process
      (ResourceAllocationGraph.add_process
        (ResourceAllocationGraph.add_process g0 "P1") "P2") "P3") "P4"
  let g2 := ResourceAllocationGraph.add_resource
    (ResourceAllocationGraph.add_resource
      (ResourceAllocationGraph.add_resource
        (ResourceAllocationGraph.add_resource g1 "R1" 1) "R2" 1) "R3" 1) "R4" 1
  let g3 := ResourceAllocationGraph.allocation_edge
    (ResourceAllocationGraph.allocation_edge
      (ResourceAllocationGraph.allocation_edge
        (ResourceAllocationGraph.allocation_edge g2 "R1" "P1") "R2" "P2") "R3" "P3") "R4" "P4"
  ResourceAllocationGraph.request_edge
    (ResourceAllocationGraph.request_edge
      (ResourceAllocationGraph.request_edge
        (ResourceAllocationGraph.request_edge g3 "P1" "R2") "P2" "R3") "P3" "R4") "P4" "R1"

/-- One resource `R` with a single instance, processes `P1`, `P2`, and `R`
allocated to `P1`: `R` already has `instanceCount` outstanding allocations. -/
def exhaustedG1 : ResourceAllocationGraph String :=
  ResourceAllocationGraph.allocation_edge
    (ResourceAllocationGraph.add_process
      (ResourceAllocationGraph.add_process
        (ResourceAllocationGraph.add_resource ResourceAllocationGraph.empty "R" 1) "P1") "P2")
    "R" "P1"

/-- A further `allocation_edge("R", "P2")` on top of `exhaustedG1`. -/
def exhaustedG2 : ResourceAllocationGraph String :=
  ResourceAllocationGraph.allocation_edge exhaustedG1 "R" "P2"

/-- The empty graph over string node ids. -/
def emptyStringGraph : ResourceAllocationGraph String := ResourceAllocationGraph.empty

/-- A two-node self-request instance over `Nat` ids: process `1` holds
resource `2` and requests it again. -/
def selfRequestGraph : ResourceAllocationGraph Nat :=
  ResourceAllocationGraph.allocation_edge
    (ResourceAllocationGraph.request_edge
      (ResourceAllocationGraph.add_resource
        (ResourceAllocationGraph.add_process ResourceAllocationGraph.empty 1) 2 1)
      1 2)
    2 1

/-- The call sequence that configures the classic instance and then has
process 1 request `[1,0,2]`. -/
def classicOps : List BOp :=
  [BOp.setMax [[7, 5, 3], [3, 2, 2], [9, 0, 2], [2, 2, 2], [4, 3, 3]],
   BOp.setAlloc [[0, 1, 0], [2, 0, 0], [3, 0, 2], [2, 1, 1], [0, 0, 2]],
   BOp.request 1 [1, 0, 2]]

theorem vecAdd_vecSub_cancel (a b : List Int) (h : a.length = b.length) :
    vecAdd (vecSub a b) b = a := by
  induction a generalizing b with
  | nil => cases b with | nil => rfl | cons y ys => simp at h
  | cons x xs ih =>
    cases b with
    | nil => simp at h
    | cons y ys =>
      simp only [vecSub, vecAdd, List.zipWith_cons_cons, List.cons.injEq]
      exact ⟨by ring, ih ys (by simpa using h)⟩

theorem vecSub_vecAdd_cancel (a b : List Int) (h : a.length = b.length) :
    vecSub (vecAdd a b) b = a := by
  induction a generalizing b with
  | nil => cases b with | nil => rfl | cons y ys => simp at h
  | cons x xs ih =>
    cases b with
    | nil => simp at h
    | cons y ys =>
      simp only [vecSub, vecAdd, List.zipWith_cons_cons, List.cons.injEq]
      exact ⟨by ring, ih ys (by simpa using h)⟩

theorem getD_set_self {β : Type} (l : List β) (i : Nat) (x d : β) (h : i < l.length) :
    (l.set i x).getD i d = x := by
  simp [List.getD_eq_getElem?_getD, List.getElem?_set_self h]

theorem getD_set_ne {β : Type} (l : List β) {i j : Nat} (x d : β) (h : i ≠ j) :
    (l.set i x).getD j d = l.getD j d := by
  simp [List.getD_eq_getElem?_getD, List.getElem?_set_ne h]

theorem set_getD_self {β : Type} (l : List β) (i : Nat) (d : β) (h : i < l.length) :
    l.set i (l.getD i d) = l := by
  induction l generalizing i with
  | nil => simp at h
  | cons x xs ih =>
    cases i with
    | zero => simp
    | succ k =>
      simp only [List.getD_cons_succ, List.set_cons_succ]
      rw [ih k (by simpa using h)]

theorem rollback_temporarily_eq (s : BankersAlgorithm) (pid : Nat) (req : List Int)
    (h : reqWF s pid req) :
    BankersAlgorithm.rollback_allocation (BankersAlgorithm.temporarily_allocate s pid req)
      pid req = s := by
  obtain ⟨n, m, av, mc, al, nd⟩ := s
  obtain ⟨hav, hal, hnd, hpl, hpn⟩ := h
  simp only [BankersAlgorithm.temporarily_allocate, BankersAlgorithm.rollback_allocation,
    BankersAlgorithm.mk.injEq] at *
  refine ⟨trivial, trivial, vecAdd_vecSub_cancel av req hav, trivial, ?_, ?_⟩
  · rw [getD_set_self _ _ _ _ (by simpa using hpl), vecSub_vecAdd_cancel _ req hal,
      List.set_set]
    exact set_getD_self al pid [] hpl
  · rw [getD_set_self _ _ _ _ (by simpa using hpn), vecAdd_vecSub_cancel _ req hnd,
      List.set_set]
    exact set_getD_self nd pid [] hpn

theorem request_denied_state_eq (s : BankersAlgorithm) (pid : Nat) (req : List Int)
    (h : reqWF s pid req)
    (hfst : (BankersAlgorithm.request_resources s pid req).1 = false) :
    (BankersAlgorithm.request_resources s pid req).2 = s := by
  by_cases h1 : anyGt req (s.need.getD pid []) = true
  · simp only [BankersAlgorithm.request_resources, if_pos h1]
  · by_cases h2 : anyGt req s.available = true
    · simp only [BankersAlgorithm.request_resources, if_neg h1, if_pos h2]
    · by_cases h3 :
        BankersAlgorithm.is_safe (BankersAlgorithm.temporarily_allocate s pid req) = true
      · simp only [BankersAlgorithm.request_resources, if_neg h1, if_neg h2, if_pos h3] at hfst
        exact absurd hfst (by simp)
      · simp only [BankersAlgorithm.request_resources, if_neg h1, if_neg h2, if_neg h3]
        exact rollback_temporarily_eq s pid req h

/-- C1: every denied `request_resources` call — request exceeding need,
request exceeding available, or grant leaving the system unsafe — leaves
the post-call object state (available, max_claim, allocation, need)
identical to the pre-call state, and in the unsafe case
`_rollback_allocation` is the exact inverse of `_temporarily_allocate`. -/
theorem requestResources_denied_state_unchanged
    (s : BankersAlgorithm) (pid : Nat) (req : List Int) (h : reqWF s pid req)
    (hd : (BankersAlgorithm.request_resources s pid req).1 = false) :
    (BankersAlgorithm.request_resources s pid req).2 = s ∧
    BankersAlgorithm.rollback_allocation (BankersAlgorithm.temporarily_allocate s pid req)
      pid req = s :=
  ⟨request_denied_state_eq s pid req h hd, rollback_temporarily_eq s pid req h⟩

/-- Witness for C1: on the classic instance, process 0 requesting
`[4,4,4]` exceeds its need and is denied, and the state is unchanged. -/
theorem requestResources_denied_state_unchanged_witness :
    (BankersAlgorithm.request_resources classicState 0 [4, 4, 4]).2 = classicState :=
  (requestResources_denied_state_unchanged classicState 0 [4, 4, 4]
    (by decide) (by decide)).1

/-- C2 counterexample: on the classic instance the safe sequence produced by
the code's scan (restart at index 0 after every finish) is not
`[1, 3, 4, 0, 2]`. -/
theorem safeSequence_classic_ne_textbook :
    BankersAlgorithm.safe_sequence classicState ≠ [1, 3, 4, 0, 2] := by decide

/-- C2 (amended): on the classic instance `is_safe` returns true, and the
lowest-index tie-break with restart from index 0 yields the safe sequence
`[1, 3, 0, 2, 4]` (after finishing 1 and 3, work is `[7,4,3]`, so the scan
restarted at 0 finishes process 0 before process 4). -/
theorem isSafe_classic_true_sequence :
    BankersAlgorithm.is_safe classicState = true ∧
    BankersAlgorithm.safe_sequence classicState = [1, 3, 0, 2, 4] := by decide

/-- C6 counterexample: `set_available` on a 2-resource ledger accepts a
3-entry vector — no `DimensionMismatch` failure — and the ledger does not
remain in its last valid state. -/
theorem setAvailable_mismatched_shape_mutates :
    (BankersAlgorithm.set_available (BankersAlgorithm.init 2 2) [1, 2, 3]).available
      ≠ (BankersAlgorithm.init 2 2).available := by decide

/-- C6 (amended): the setters perform no shape validation at all: each call,
whatever the shape of its argument, unconditionally replaces the stored
matrix (with `need` re-derived by the two matrix setters) and leaves the
other stored matrices untouched. -/
theorem setters_replace_unconditionally
    (s : BankersAlgorithm) (v : List Int) (mc al : List (List Int)) :
    (BankersAlgorithm.set_available s v).available = v ∧
    (BankersAlgorithm.set_available s v).max_claim = s.max_claim ∧
    (BankersAlgorithm.set_available s v).allocation = s.allocation ∧
    (BankersAlgorithm.set_available s v).need = s.need ∧
    (BankersAlgorithm.set_max_claim s mc).max_claim = mc ∧
    (BankersAlgorithm.set_max_claim s mc).available = s.available ∧
    (BankersAlgorithm.set_max_claim s mc).allocation = s.allocation ∧
    (BankersAlgorithm.set_allocation s al).allocation = al ∧
    (BankersAlgorithm.set_allocation s al).available = s.available ∧
    (BankersAlgorithm.set_allocation s al).max_claim = s.max_claim := by
  obtain ⟨n, m, av, mcs, als, nds⟩ := s
  simp [BankersAlgorithm.set_available, BankersAlgorithm.set_max_claim,
    BankersAlgorithm.set_allocation, BankersAlgorithm.update_need]

theorem temporarily_allocate_frame (s : BankersAlgorithm) (pid : Nat) (req : List Int)
    (j : Nat) (hj : j ≠ pid) :
    (BankersAlgorithm.temporarily_allocate s pid req).max_claim = s.max_claim ∧
    (BankersAlgorithm.temporarily_allocate s pid req).allocation.getD j []
      = s.allocation.getD j [] ∧
    (BankersAlgorithm.temporarily_allocate s pid req).need.getD j [] = s.need.getD j [] := by
  obtain ⟨n, m, av, mc, al, nd⟩ := s
  exact ⟨rfl, getD_set_ne al _ _ (fun e => hj e.symm),
    getD_set_ne nd _ _ (fun e => hj e.symm)⟩

theorem rollback_allocation_frame (s : BankersAlgorithm) (pid : Nat) (req : List Int)
    (j : Nat) (hj : j ≠ pid) :
    (BankersAlgorithm.rollback_allocation s pid req).max_claim = s.max_claim ∧
    (BankersAlgorithm.rollback_allocation s pid req).allocation.getD j []
      = s.allocation.getD j [] ∧
    (BankersAlgorithm.rollback_allocation s pid req).need.getD j [] = s.need.getD j [] := by
  obtain ⟨n, m, av, mc, al, nd⟩ := s
  exact ⟨rfl, getD_set_ne al _ _ (fun e => hj e.symm),
    getD_set_ne nd _ _ (fun e => hj e.symm)⟩

/-- C10: whatever the outcome of `request_resources(pid, req)`, `max_claim`
is unchanged and every row of `allocation` and `need` other than row `pid`
is unchanged. -/
theorem requestResources_frame (s : BankersAlgorithm) (pid : Nat) (req : List Int)
    (j : Nat) (hj : j ≠ pid) :
    (BankersAlgorithm.request_resources s pid req).2.max_claim = s.max_claim ∧
    (BankersAlgorithm.request_resources s pid req).2.allocation.getD j []
      = s.allocation.getD j [] ∧
    (BankersAlgorithm.request_resources s pid req).2.need.getD j []
      = s.need.getD j [] := by
  by_cases h1 : anyGt req (s.need.getD pid []) = true
  · simp only [BankersAlgorithm.request_resources, if_pos h1]
    trivial
  · by_cases h2 : anyGt req s.available = true
    · simp only [BankersAlgorithm.request_resources, if_neg h1, if_pos h2]
      trivial
    · by_cases h3 :
        BankersAlgorithm.is_safe (BankersAlgorithm.temporarily_allocate s pid req) = true
      · simp only [BankersAlgorithm.request_resources, if_neg h1, if_neg h2, if_pos h3]
        exact temporarily_allocate_frame s pid req j hj
      · simp only [BankersAlgorithm.request_resources, if_neg h1, if_neg h2, if_neg h3]
        obtain ⟨ht1, ht2, ht3⟩ := temporarily_allocate_frame s pid req j hj
        obtain ⟨hr1, hr2, hr3⟩ :=
          rollback_allocation_frame (BankersAlgorithm.temporarily_allocate s pid req)
            pid req j hj
        exact ⟨hr1.trans ht1, hr2.trans ht2, hr3.trans ht3⟩

/-- Witness for C10: process 1 requests `[1,0,2]` on the classic instance;
row 0 of allocation and need, and all of max_claim, are unchanged. -/
theorem requestResources_frame_witness :
    (BankersAlgorithm.request_resources classicState 1 [1, 0, 2]).2.max_claim
      = classicState.max_claim ∧
    (BankersAlgorithm.request_resources classicState 1 [1, 0, 2]).2.allocation.getD 0 []
      = classicState.allocation.getD 0 [] ∧
    (BankersAlgorithm.request_resources classicState 1 [1, 0, 2]).2.need.getD 0 []
      = classicState.need.getD 0 [] :=
  requestResources_frame classicState 1 [1, 0, 2] 0 (by decide)

theorem getD_mem {β : Type} (l : List β) (i : Nat) (d : β) (h : i < l.length) :
    l.getD i d ∈ l := by
  rw [List.getD_eq_getElem?_getD, List.getElem?_eq_getElem h]
  exact List.getElem_mem h

theorem mem_zipWith_elim {β γ δ : Type} {f : β → γ → δ} :
    ∀ {a : List β} {b : List γ} {c : δ},
      c ∈ List.zipWith f a b → ∃ x ∈ a, ∃ y ∈ b, c = f x y := by
  intro a
  induction a with
  | nil => intro b c h; simp at h
  | cons x xs ih =>
    intro b c h
    cases b with
    | nil => simp at h
    | cons y ys =>
      rw [List.zipWith_cons_cons, List.mem_cons] at h
      rcases h with h | h
      · exact ⟨x, by simp, y, by simp, h⟩
      · obtain ⟨x0, hx0, y0, hy0, hc⟩ := ih h
        exact ⟨x0, by simp [hx0], y0, by simp [hy0], hc⟩

theorem getD_zipWith {β γ δ : Type} (f : β → γ → δ) (a : List β) (b : List γ)
    (i : Nat) (d : δ) (da : β) (db : γ) (ha : i < a.length) (hb : i < b.length) :
    (List.zipWith f a b).getD i d = f (a.getD i da) (b.getD i db) := by
  induction a generalizing b i with
  | nil => simp at ha
  | cons x xs ih =>
    cases b with
    | nil => simp at hb
    | cons y ys =>
      cases i with
      | zero => simp
      | succ k =>
        rw [List.zipWith_cons_cons]
        simp only [List.getD_cons_succ]
        exact ih ys k (by simpa using ha) (by simpa using hb)

theorem zipWith_set_right {β γ δ : Type} (f : β → γ → δ) (a : List β) (b : List γ)
    (i : Nat) (y : γ) (da : β) (ha : i < a.length) (hb : i < b.length) :
    List.zipWith f a (b.set i y) = (List.zipWith f a b).set i (f (a.getD i da) y) := by
  induction a generalizing b i with
  | nil => simp at ha
  | cons x xs ih =>
    cases b with
    | nil => simp at hb
    | cons z zs =>
      cases i with
      | zero => simp
      | succ k =>
        simp only [List.set_cons_succ, List.zipWith_cons_cons, List.getD_cons_succ]
        rw [ih zs k (by simpa using ha) (by simpa using hb)]

theorem vecSub_vecAdd_assoc (a b c : List Int) :
    vecSub a (vecAdd b c) = vecSub (vecSub a b) c := by
  induction a generalizing b c with
  | nil => simp [vecSub]
  | cons x xs ih =>
    cases b with
    | nil => simp [vecSub, vecAdd]
    | cons y ys =>
      cases c with
      | nil => simp [vecSub, vecAdd]
      | cons z zs =>
        simp only [vecSub, vecAdd, List.zipWith_cons_cons, List.cons.injEq]
        constructor
        · ring
        · exact ih ys zs

theorem colSum_set (rows : List (List Int)) (i : Nat) (x : List Int) (r : Nat)
    (h : i < rows.length) :
    colSum (rows.set i x) r
      = colSum rows r - (rows.getD i []).getD r 0 + x.getD r 0 := by
  induction rows generalizing i with
  | nil => simp at h
  | cons row rest ih =>
    cases i with
    | zero => simp [colSum]; ring
    | succ k =>
      simp only [List.set_cons_succ, List.getD_cons_succ, colSum, List.map_cons,
        List.sum_cons]
      have := ih k (by simpa using h)
      simp only [colSum] at this
      rw [this]
      ring

theorem reqWF_of_stateWF (s : BankersAlgorithm) (pid : Nat) (req : List Int)
    (hs : stateWF s) (hpid : pid < s.n_processes) (hreq : req.length = s.n_resources) :
    reqWF s pid req := by
  obtain ⟨hav, hmc, hal, hnd⟩ := hs
  have h1 : pid < s.allocation.length := by rw [hal.1]; exact hpid
  have h2 : pid < s.need.length := by rw [hnd.1]; exact hpid
  refine ⟨hav.trans hreq.symm, ?_, ?_, h1, h2⟩
  · exact (hal.2 _ (getD_mem _ _ _ h1)).trans hreq.symm
  · exact (hnd.2 _ (getD_mem _ _ _ h2)).trans hreq.symm

theorem dims_zipWith_vecSub {n m : Nat} {a b : List (List Int)}
    (ha : dimsWF n m a) (hb : dimsWF n m b) :
    dimsWF n m (List.zipWith vecSub a b) := by
  constructor
  · rw [List.length_zipWith, ha.1, hb.1]; exact Nat.min_self n
  · intro row hrow
    obtain ⟨x, hx, y, hy, hc⟩ := mem_zipWith_elim hrow
    rw [hc]
    show (List.zipWith (· - ·) x y).length = m
    rw [List.length_zipWith, ha.2 x hx, hb.2 y hy]
    exact Nat.min_self m

theorem temporarily_allocate_dims (s : BankersAlgorithm) (pid : Nat) (req : List Int) :
    (BankersAlgorithm.temporarily_allocate s pid req).n_processes = s.n_processes ∧
    (BankersAlgorithm.temporarily_allocate s pid req).n_resources = s.n_resources := by
  obtain ⟨n, m, av, mc, al, nd⟩ := s
  exact ⟨rfl, rfl⟩

theorem rollback_allocation_dims (s : BankersAlgorithm) (pid : Nat) (req : List Int) :
    (BankersAlgorithm.rollback_allocation s pid req).n_processes = s.n_processes ∧
    (BankersAlgorithm.rollback_allocation s pid req).n_resources = s.n_resources := by
  obtain ⟨n, m, av, mc, al, nd⟩ := s
  exact ⟨rfl, rfl⟩

theorem request_resources_dims (s : BankersAlgorithm) (pid : Nat) (req : List Int) :
    (BankersAlgorithm.request_resources s pid req).2.n_processes = s.n_processes ∧
    (BankersAlgorithm.request_resources s pid req).2.n_resources = s.n_resources := by
  by_cases h1 : anyGt req (s.need.getD pid []) = true
  · simp only [BankersAlgorithm.request_resources, if_pos h1]
    trivial
  · by_cases h2 : anyGt req s.available = true
    · simp only [BankersAlgorithm.request_resources, if_neg h1, if_pos h2]
      trivial
    · by_cases h3 :
        BankersAlgorithm.is_safe (BankersAlgorithm.temporarily_allocate s pid req) = true
      · simp only [BankersAlgorithm.request_resources, if_neg h1, if_neg h2, if_pos h3]
        exact temporarily_allocate_dims s pid req
      · simp only [BankersAlgorithm.request_resources, if_neg h1, if_neg h2, if_neg h3]
        obtain ⟨d1, d2⟩ :=
          rollback_allocation_dims (BankersAlgorithm.temporarily_allocate s pid req) pid req
        obtain ⟨e1, e2⟩ := temporarily_allocate_dims s pid req
        exact ⟨d1.trans e1, d2.trans e2⟩

theorem needInv_set_max_claim (s : BankersAlgorithm) (mc : List (List Int)) :
    needInvariant (BankersAlgorithm.set_max_claim s mc) := by
  obtain ⟨n, m, av, mcs, al, nd⟩ := s
  rfl

theorem needInv_set_allocation (s : BankersAlgorithm) (al : List (List Int)) :
    needInvariant (BankersAlgorithm.set_allocation s al) := by
  obtain ⟨n, m, av, mcs, als, nd⟩ := s
  rfl

theorem stateWF_set_max_claim (s : BankersAlgorithm) (mc : List (List Int))
    (hs : stateWF s) (hmc : dimsWF s.n_processes s.n_resources mc) :
    stateWF (BankersAlgorithm.set_max_claim s mc) := by
  obtain ⟨n, m, av, mcs, al, nd⟩ := s
  obtain ⟨hav, hmcd, hald, hndd⟩ := hs
  exact ⟨hav, hmc, hald, dims_zipWith_vecSub hmc hald⟩

theorem stateWF_set_allocation (s : BankersAlgorithm) (al : List (List Int))
    (hs : stateWF s) (hal : dimsWF s.n_processes s.n_resources al) :
    stateWF (BankersAlgorithm.set_allocation s al) := by
  obtain ⟨n, m, av, mcs, als, nd⟩ := s
  obtain ⟨hav, hmcd, hald, hndd⟩ := hs
  exact ⟨hav, hmcd, hal, dims_zipWith_vecSub hmcd hal⟩

theorem stateWF_temporarily_allocate (s : BankersAlgorithm) (pid : Nat) (req : List Int)
    (hs : stateWF s) (hpid : pid < s.n_processes) (hreq : req.length = s.n_resources) :
    stateWF (BankersAlgorithm.temporarily_allocate s pid req) := by
  obtain ⟨n, m, av, mc, al, nd⟩ := s
  obtain ⟨hav, hmcd, hald, hndd⟩ := hs
  show stateWF ⟨n, m, vecSub av req, mc,
    al.set pid (vecAdd (al.getD pid []) req),
    nd.set pid (vecSub (nd.getD pid []) req)⟩
  refine ⟨?_, hmcd, ⟨?_, ?_⟩, ⟨?_, ?_⟩⟩
  · show (List.zipWith (· - ·) av req).length = m
    rw [List.length_zipWith, hav, hreq]; exact Nat.min_self m
  · simpa [List.length_set] using hald.1
  · intro row hrow
    rcases List.mem_or_eq_of_mem_set hrow with h | h
    · exact hald.2 row h
    · rw [h]
      show (List.zipWith (· + ·) (al.getD pid []) req).length = m
      rw [List.length_zipWith, hald.2 _ (getD_mem _ _ _ (by rw [hald.1]; exact hpid)), hreq]
      exact Nat.min_self m
  · simpa [List.length_set] using hndd.1
  · intro row hrow
    rcases List.mem_or_eq_of_mem_set hrow with h | h
    · exact hndd.2 row h
    · rw [h]
      show (List.zipWith (· - ·) (nd.getD pid []) req).length = m
      rw [List.length_zipWith, hndd.2 _ (getD_mem _ _ _ (by rw [hndd.1]; exact hpid)), hreq]
      exact Nat.min_self m

theorem needInv_temporarily_allocate (s : BankersAlgorithm) (pid : Nat) (req : List Int)
    (hs : stateWF s) (hinv : needInvariant s) (hpid : pid < s.n_processes) :
    needInvariant (BankersAlgorithm.temporarily_allocate s pid req) := by
  obtain ⟨n, m, av, mc, al, nd⟩ := s
  obtain ⟨hav, hmcd, hald, hndd⟩ := hs
  have hmcl : pid < mc.length := by rw [hmcd.1]; exact hpid
  have hall : pid < al.length := by rw [hald.1]; exact hpid
  show BankersAlgorithm.need _ = _
  simp only [needInvariant] at hinv
  simp only [BankersAlgorithm.temporarily_allocate]
  show nd.set pid (vecSub (nd.getD pid []) req)
    = List.zipWith vecSub mc (al.set pid (vecAdd (al.getD pid []) req))
  rw [hinv]
  rw [zipWith_set_right vecSub mc al pid _ [] hmcl hall]
  rw [vecSub_vecAdd_assoc]
  rw [getD_zipWith vecSub mc al pid [] [] [] hmcl hall]

theorem request_resources_preserves (s : BankersAlgorithm) (pid : Nat) (req : List Int)
    (hs : stateWF s) (hinv : needInvariant s)
    (hpid : pid < s.n_processes) (hreq : req.length = s.n_resources) :
    stateWF (BankersAlgorithm.request_resources s pid req).2 ∧
    needInvariant (BankersAlgorithm.request_resources s pid req).2 := by
  by_cases h1 : anyGt req (s.need.getD pid []) = true
  · simp only [BankersAlgorithm.request_resources, if_pos h1]
    exact ⟨hs, hinv⟩
  · by_cases h2 : anyGt req s.available = true
    · simp only [BankersAlgorithm.request_resources, if_neg h1, if_pos h2]
      exact ⟨hs, hinv⟩
    · by_cases h3 :
        BankersAlgorithm.is_safe (BankersAlgorithm.temporarily_allocate s pid req) = true
      · simp only [BankersAlgorithm.request_resources, if_neg h1, if_neg h2, if_pos h3]
        exact ⟨stateWF_temporarily_allocate s pid req hs hpid hreq,
          needInv_temporarily_allocate s pid req hs hinv hpid⟩
      · simp only [BankersAlgorithm.request_resources, if_neg h1, if_neg h2, if_neg h3]
        rw [rollback_temporarily_eq s pid req (reqWF_of_stateWF s pid req hs hpid hreq)]
        exact ⟨hs, hinv⟩

theorem applyOp_dims (s : BankersAlgorithm) (op : BOp) :
    (applyOp s op).n_processes = s.n_processes ∧
    (applyOp s op).n_resources = s.n_resources := by
  cases op with
  | setMax mc => obtain ⟨n, m, av, mcs, al, nd⟩ := s; exact ⟨rfl, rfl⟩
  | setAlloc al => obtain ⟨n, m, av, mcs, als, nd⟩ := s; exact ⟨rfl, rfl⟩
  | request pid req => exact request_resources_dims s pid req

theorem applyOp_preserves (s : BankersAlgorithm) (op : BOp)
    (hs : stateWF s) (hinv : needInvariant s)
    (hop : opWF s.n_processes s.n_resources op) :
    stateWF (applyOp s op) ∧ needInvariant (applyOp s op) := by
  cases op with
  | setMax mc =>
    exact ⟨stateWF_set_max_claim s mc hs hop, needInv_set_max_claim s mc⟩
  | setAlloc al =>
    exact ⟨stateWF_set_allocation s al hs hop, needInv_set_allocation s al⟩
  | request pid req =>
    exact request_resources_preserves s pid req hs hinv hop.1 hop.2

theorem runOps_preserves : ∀ (ops : List BOp) (s : BankersAlgorithm),
    stateWF s → needInvariant s →
    (∀ op ∈ ops, opWF s.n_processes s.n_resources op) →
    stateWF (runOps s ops) ∧ needInvariant (runOps s ops) ∧
    (runOps s ops).n_processes = s.n_processes ∧
    (runOps s ops).n_resources = s.n_resources := by
  intro ops
  induction ops with
  | nil => intro s h1 h2 _; exact ⟨h1, h2, rfl, rfl⟩
  | cons op rest ih =>
    intro s h1 h2 hops
    have hop : opWF s.n_processes s.n_resources op := hops op (by simp)
    have hstep := applyOp_preserves s op h1 h2 hop
    have hdims := applyOp_dims s op
    have hrest : ∀ o ∈ rest, opWF (applyOp s op).n_processes (applyOp s op).n_resources o := by
      intro o ho; rw [hdims.1, hdims.2]; exact hops o (by simp [ho])
    have hfin := ih (applyOp s op) hstep.1 hstep.2 hrest
    simp only [runOps, List.foldl_cons] at *
    exact ⟨hfin.1, hfin.2.1, hfin.2.2.1.trans hdims.1, hfin.2.2.2.trans hdims.2⟩

theorem stateWF_init (n m : Nat) : stateWF (BankersAlgorithm.init n m) := by
  refine ⟨by simp [BankersAlgorithm.init], ?_, ?_, ?_⟩ <;>
    exact ⟨by simp [BankersAlgorithm.init], by
      intro r hr
      simp only [BankersAlgorithm.init] at hr
      rw [List.eq_of_mem_replicate hr]
      simp [BankersAlgorithm.init]⟩

theorem needInv_init (n m : Nat) : needInvariant (BankersAlgorithm.init n m) := by
  show List.replicate n (List.replicate m 0) = _
  rw [show BankersAlgorithm.max_claim (BankersAlgorithm.init n m)
      = List.replicate n (List.replicate m 0) from rfl,
    show BankersAlgorithm.allocation (BankersAlgorithm.init n m)
      = List.replicate n (List.replicate m 0) from rfl,
    List.zipWith_replicate]
  simp [vecSub, List.zipWith_replicate]

theorem temporarily_allocate_fields (s : BankersAlgorithm) (pid : Nat) (req : List Int) :
    (BankersAlgorithm.temporarily_allocate s pid req).available = vecSub s.available req ∧
    (BankersAlgorithm.temporarily_allocate s pid req).allocation
      = s.allocation.set pid (vecAdd (s.allocation.getD pid []) req) ∧
    (BankersAlgorithm.temporarily_allocate s pid req).need
      = s.need.set pid (vecSub (s.need.getD pid []) req) := by
  obtain ⟨n, m, av, mc, al, nd⟩ := s
  exact ⟨rfl, rfl, rfl⟩

/-- C4: after any well-shaped sequence of `set_max_claim`, `set_allocation`
and `request_resources` calls starting from `__init__`,
`need[p][r] = max_claim[p][r] - allocation[p][r]` for every process `p` and
resource type `r`. -/
theorem need_eq_maxClaim_sub_allocation (n m : Nat) (ops : List BOp)
    (hops : ∀ op ∈ ops, opWF n m op) (p r : Nat) (hp : p < n) (hr : r < m) :
    ((runOps (BankersAlgorithm.init n m) ops).need.getD p []).getD r 0
      = ((runOps (BankersAlgorithm.init n m) ops).max_claim.getD p []).getD r 0
        - ((runOps (BankersAlgorithm.init n m) ops).allocation.getD p []).getD r 0 := by
  obtain ⟨⟨hav, hmcd, hald, hndd⟩, hinv, hnp, hnr⟩ :=
    runOps_preserves ops (BankersAlgorithm.init n m)
      (stateWF_init n m) (needInv_init n m) hops
  have hmcl : p < (runOps (BankersAlgorithm.init n m) ops).max_claim.length := by
    rw [hmcd.1, hnp]; exact hp
  have hall : p < (runOps (BankersAlgorithm.init n m) ops).allocation.length := by
    rw [hald.1, hnp]; exact hp
  rw [hinv, getD_zipWith vecSub _ _ p [] [] [] hmcl hall]
  have hmr : r < ((runOps (BankersAlgorithm.init n m) ops).max_claim.getD p []).length := by
    rw [hmcd.2 _ (getD_mem _ _ _ hmcl), hnr]; exact hr
  have har : r < ((runOps (BankersAlgorithm.init n m) ops).allocation.getD p []).length := by
    rw [hald.2 _ (getD_mem _ _ _ hall), hnr]; exact hr
  show (List.zipWith (· - ·) _ _).getD r 0 = _
  rw [getD_zipWith (· - ·) _ _ r 0 0 0 hmr har]

/-- Witness for C4: the classic configuration followed by a granted request
of process 1; checked at `p = 1`, `r = 2`. -/
theorem need_eq_maxClaim_sub_allocation_witness :
    ((runOps (BankersAlgorithm.init 5 3) classicOps).need.getD 1 []).getD 2 0
      = ((runOps (BankersAlgorithm.init 5 3) classicOps).max_claim.getD 1 []).getD 2 0
        - ((runOps (BankersAlgorithm.init 5 3) classicOps).allocation.getD 1 []).getD 2 0 :=
  need_eq_maxClaim_sub_allocation 5 3 classicOps (by decide) 1 2 (by decide) (by decide)

/-- C5: a single `request_resources` call — granted or denied — preserves
`available[r] + Σ_p allocation[p][r]` for every resource type `r`. -/
theorem requestResources_conserves_units (s : BankersAlgorithm) (pid : Nat)
    (req : List Int) (r : Nat) (hs : stateWF s) (hpid : pid < s.n_processes)
    (hreq : req.length = s.n_resources) (hr : r < s.n_resources) :
    (BankersAlgorithm.request_resources s pid req).2.available.getD r 0
        + colSum (BankersAlgorithm.request_resources s pid req).2.allocation r
      = s.available.getD r 0 + colSum s.allocation r := by
  by_cases h1 : anyGt req (s.need.getD pid []) = true
  · simp only [BankersAlgorithm.request_resources, if_pos h1]
  · by_cases h2 : anyGt req s.available = true
    · simp only [BankersAlgorithm.request_resources, if_neg h1, if_pos h2]
    · by_cases h3 :
        BankersAlgorithm.is_safe (BankersAlgorithm.temporarily_allocate s pid req) = true
      · simp only [BankersAlgorithm.request_resources, if_neg h1, if_neg h2, if_pos h3]
        obtain ⟨hf1, hf2, hf3⟩ := temporarily_allocate_fields s pid req
        rw [hf1, hf2]
        have hravail : r < s.available.length := by rw [hs.1]; exact hr
        have hrreq : r < req.length := by rw [hreq]; exact hr
        have hpal : pid < s.allocation.length := by rw [hs.2.2.1.1]; exact hpid
        have hral : r < (s.allocation.getD pid []).length := by
          rw [hs.2.2.1.2 _ (getD_mem _ _ _ hpal)]; exact hr
        have h5 : (vecSub s.available req).getD r 0
            = s.available.getD r 0 - req.getD r 0 := by
          show (List.zipWith (· - ·) _ _).getD r 0 = _
          rw [getD_zipWith (· - ·) _ _ r 0 0 0 hravail hrreq]
        have h7 : (vecAdd (s.allocation.getD pid []) req).getD r 0
            = (s.allocation.getD pid []).getD r 0 + req.getD r 0 := by
          show (List.zipWith (· + ·) _ _).getD r 0 = _
          rw [getD_zipWith (· + ·) _ _ r 0 0 0 hral hrreq]
        rw [colSum_set _ pid _ r hpal, h5, h7]
        ring
      · simp only [BankersAlgorithm.request_resources, if_neg h1, if_neg h2, if_neg h3]
        rw [rollback_temporarily_eq s pid req (reqWF_of_stateWF s pid req hs hpid hreq)]

/-- Witness for C5: process 1 requesting `[1,0,2]` on the classic instance
conserves the units of resource type 0. -/
theorem requestResources_conserves_units_witness :
    (BankersAlgorithm.request_resources classicState 1 [1, 0, 2]).2.available.getD 0 0
        + colSum (BankersAlgorithm.request_resources classicState 1 [1, 0, 2]).2.allocation 0
      = classicState.available.getD 0 0 + colSum classicState.allocation 0 :=
  requestResources_conserves_units classicState 1 [1, 0, 2] 0
    (by decide) (by decide) (by decide) (by decide)

theorem mem_insertNew_self {α : Type} [DecidableEq α] (l : List α) (x : α) :
    x ∈ insertNew l x := by
  unfold insertNew
  split
  · assumption
  · simp

theorem mem_insertNew_of_mem {α : Type} [DecidableEq α] {l : List α} {y : α} (x : α)
    (h : y ∈ l) : y ∈ insertNew l x := by
  unfold insertNew
  split
  · exact h
  · simp [h]

theorem find_addEdge {α : Type} [DecidableEq α] (es : List (α × α × EdgeType))
    (u v : α) (t : EdgeType) :
    (addEdge es u v t).find? (fun e => decide (e.1 = u) && decide (e.2.1 = v))
      = some (u, v, t) := by
  induction es with
  | nil => simp [addEdge, List.find?]
  | cons e rest ih =>
    obtain ⟨a, b, t0⟩ := e
    by_cases h : a = u ∧ b = v
    · simp [addEdge, if_pos h, List.find?]
    · simp only [addEdge, if_neg h]
      have hfalse : (decide (a = u) && decide (b = v)) = false := by
        by_cases ha : a = u
        · by_cases hb : b = v
          · exact absurd ⟨ha, hb⟩ h
          · simp [hb]
        · simp [ha]
      rw [List.find?_cons, hfalse]
      exact ih

theorem add_process_fields {α : Type} [DecidableEq α] (g : ResourceAllocationGraph α)
    (p : α) :
    (ResourceAllocationGraph.add_process g p).processes = insertNew g.processes p ∧
    (ResourceAllocationGraph.add_process g p).resources = g.resources ∧
    (ResourceAllocationGraph.add_process g p).nodes = insertNew g.nodes p ∧
    (ResourceAllocationGraph.add_process g p).edges = g.edges := by
  obtain ⟨ns, es, ps, rs, ri, ra⟩ := g
  exact ⟨rfl, rfl, rfl, rfl⟩

theorem add_resource_fields {α : Type} [DecidableEq α] (g : ResourceAllocationGraph α)
    (r : α) (k : Int) :
    (ResourceAllocationGraph.add_resource g r k).resources = insertNew g.resources r ∧
    (ResourceAllocationGraph.add_resource g r k).processes = g.processes ∧
    (ResourceAllocationGraph.add_resource g r k).nodes = insertNew g.nodes r ∧
    (ResourceAllocationGraph.add_resource g r k).edges = g.edges := by
  obtain ⟨ns, es, ps, rs, ri, ra⟩ := g
  exact ⟨rfl, rfl, rfl, rfl⟩

/-- C7 counterexample: resource `R` has `instanceCount` 1 and one
outstanding allocation edge in `exhaustedG1`; the further call
`allocation_edge("R", "P2")` does not fail — it changes the edge set and
leaves `R` with 2 outstanding allocation edges. -/
theorem allocationEdge_exceeds_instanceCount :
    allocOutDegree exhaustedG1 "R" = 1 ∧
    instancesOf exhaustedG1 "R" = some 1 ∧
    exhaustedG2.edges ≠ exhaustedG1.edges ∧
    allocOutDegree exhaustedG2 "R" = 2 ∧
    instancesOf exhaustedG2 "R" = some 1 := by decide

/-- C8 counterexample: `request_edge` on a fresh graph with two unregistered
endpoints does not fail — it mutates the graph, silently auto-creating both
endpoints. -/
theorem requestEdge_auto_creates_nodes :
    (ResourceAllocationGraph.request_edge emptyStringGraph "P1" "R1").edges
      ≠ emptyStringGraph.edges ∧
    "P1" ∈ (ResourceAllocationGraph.request_edge emptyStringGraph "P1" "R1").processes ∧
    "R1" ∈ (ResourceAllocationGraph.request_edge emptyStringGraph "P1" "R1").resources := by
  decide

/-- C7 (amended): `allocation_edge(resource, process)` performs no
instance-count check and never fails: whatever the graph state, the call
auto-registers missing endpoints and records the allocation edge, so the
number of outstanding allocation edges of a resource is not bounded by its
`instanceCount`. -/
theorem allocationEdge_unchecked {α : Type} [DecidableEq α]
    (g : ResourceAllocationGraph α) (r p : α) :
    ResourceAllocationGraph.edgeType (ResourceAllocationGraph.allocation_edge g r p) r p
      = some EdgeType.allocation ∧
    p ∈ (ResourceAllocationGraph.allocation_edge g r p).processes ∧
    r ∈ (ResourceAllocationGraph.allocation_edge g r p).resources := by
  simp only [ResourceAllocationGraph.allocation_edge]
  by_cases hp : p ∈ g.processes
  · by_cases hr : r ∈ g.resources
    · simp only [if_pos hp, if_pos hr]
      refine ⟨?_, hp, hr⟩
      show (List.find? _ (addEdge g.edges r p EdgeType.allocation)).map _ = _
      rw [find_addEdge]
      rfl
    · simp only [if_pos hp, if_neg hr]
      obtain ⟨h1, h2, h3, h4⟩ := add_resource_fields g r 1
      refine ⟨?_, ?_, ?_⟩
      · show (List.find? _
          (addEdge (ResourceAllocationGraph.add_resource g r 1).edges
            r p EdgeType.allocation)).map _ = _
        rw [find_addEdge]
        rfl
      · show p ∈ (ResourceAllocationGraph.add_resource g r 1).processes
        rw [h2]; exact hp
      · show r ∈ (ResourceAllocationGraph.add_resource g r 1).resources
        rw [h1]; exact mem_insertNew_self _ _
  · simp only [if_neg hp]
    obtain ⟨p1, p2, p3, p4⟩ := add_process_fields g p
    by_cases hr : r ∈ (ResourceAllocationGraph.add_process g p).resources
    · simp only [if_pos hr]
      refine ⟨?_, ?_, hr⟩
      · show (List.find? _
          (addEdge (ResourceAllocationGraph.add_process g p).edges
            r p EdgeType.allocation)).map _ = _
        rw [find_addEdge]
        rfl
      · show p ∈ (ResourceAllocationGraph.add_process g p).processes
        rw [p1]; exact mem_insertNew_self _ _
    · simp only [if_neg hr]
      obtain ⟨h1, h2, h3, h4⟩ :=
        add_resource_fields (ResourceAllocationGraph.add_process g p) r 1
      refine ⟨?_, ?_, ?_⟩
      · show (List.find? _ (addEdge (ResourceAllocationGraph.add_resource
            (ResourceAllocationGraph.add_process g p) r 1).edges
            r p EdgeType.allocation)).map _ = _
        rw [find_addEdge]
        rfl
      · show p ∈ (ResourceAllocationGraph.add_resource
            (ResourceAllocationGraph.add_process g p) r 1).processes
        rw [h2, p1]; exact mem_insertNew_self _ _
      · show r ∈ (ResourceAllocationGraph.add_resource
            (ResourceAllocationGraph.add_process g p) r 1).resources
        rw [h1]; exact mem_insertNew_self _ _

/-- C8 (amended): `request_edge(process, resource)` never fails with
`UnknownEntity`: unregistered endpoints are silently auto-created
(`add_process` / `add_resource` with one instance) and the request edge is
recorded. -/
theorem requestEdge_unchecked {α : Type} [DecidableEq α]
    (g : ResourceAllocationGraph α) (p r : α) :
    p ∈ (ResourceAllocationGraph.request_edge g p r).processes ∧
    r ∈ (ResourceAllocationGraph.request_edge g p r).resources ∧
    ResourceAllocationGraph.edgeType (ResourceAllocationGraph.request_edge g p r) p r
      = some EdgeType.request := by
  simp only [ResourceAllocationGraph.request_edge]
  by_cases hp : p ∈ g.processes
  · by_cases hr : r ∈ g.resources
    · simp only [if_pos hp, if_pos hr]
      refine ⟨hp, hr, ?_⟩
      show (List.find? _ (addEdge g.edges p r EdgeType.request)).map _ = _
      rw [find_addEdge]
      rfl
    · simp only [if_pos hp, if_neg hr]
      obtain ⟨h1, h2, h3, h4⟩ := add_resource_fields g r 1
      refine ⟨?_, ?_, ?_⟩
      · show p ∈ (ResourceAllocationGraph.add_resource g r 1).processes
        rw [h2]; exact hp
      · show r ∈ (ResourceAllocationGraph.add_resource g r 1).resources
        rw [h1]; exact mem_insertNew_self _ _
      · show (List.find? _
          (addEdge (ResourceAllocationGraph.add_resource g r 1).edges
            p r EdgeType.request)).map _ = _
        rw [find_addEdge]
        rfl
  · simp only [if_neg hp]
    obtain ⟨p1, p2, p3, p4⟩ := add_process_fields g p
    by_cases hr : r ∈ (ResourceAllocationGraph.add_process g p).resources
    · simp only [if_pos hr]
      refine ⟨?_, hr, ?_⟩
      · show p ∈ (ResourceAllocationGraph.add_process g p).processes
        rw [p1]; exact mem_insertNew_self _ _
      · show (List.find? _
          (addEdge (ResourceAllocationGraph.add_process g p).edges
            p r EdgeType.request)).map _ = _
        rw [find_addEdge]
        rfl
    · simp only [if_neg hr]
      obtain ⟨h1, h2, h3, h4⟩ :=
        add_resource_fields (ResourceAllocationGraph.add_process g p) r 1
      refine ⟨?_, ?_, ?_⟩
      · show p ∈ (ResourceAllocationGraph.add_resource
            (ResourceAllocationGraph.add_process g p) r 1).processes
        rw [h2, p1]; exact mem_insertNew_self _ _
      · show r ∈ (ResourceAllocationGraph.add_resource
            (ResourceAllocationGraph.add_process g p) r 1).resources
        rw [h1]; exact mem_insertNew_self _ _
      · show (List.find? _ (addEdge (ResourceAllocationGraph.add_resource
            (ResourceAllocationGraph.add_process g p) r 1).edges
            p r EdgeType.request)).map _ = _
        rw [find_addEdge]
        rfl

/-- C3: on the single-instance circular-wait scenario, `detect_deadlock`
returns true with exactly one deadlock cycle; it has 8 nodes, passes the
code's alternation check, and visits exactly the 8 nodes of the circular
wait. -/
theorem circularWait_single_alternating_8cycle :
    (ResourceAllocationGraph.detect_deadlock circularWaitGraph).1 = true ∧
    (ResourceAllocationGraph.detect_deadlock circularWaitGraph).2.length = 1 ∧
    ((ResourceAllocationGraph.detect_deadlock circularWaitGraph).2.headD []).length = 8 ∧
    ResourceAllocationGraph.isAlternating circularWaitGraph
      ((ResourceAllocationGraph.detect_deadlock circularWaitGraph).2.headD []) = true ∧
    ((ResourceAllocationGraph.detect_deadlock circularWaitGraph).2.headD []).Perm
      ["P1", "R2", "P2", "R3", "P3", "R4", "P4", "R1"] := by decide

theorem mem_adjList_of_edgeType {α : Type} [DecidableEq α]
    {g : ResourceAllocationGraph α} {u v : α} {t : EdgeType}
    (h : ResourceAllocationGraph.edgeType g u v = some t) :
    v ∈ ResourceAllocationGraph.adjList g u := by
  unfold ResourceAllocationGraph.edgeType at h
  cases hf : g.edges.find? (fun e => decide (e.1 = u) && decide (e.2.1 = v)) with
  | none => rw [hf] at h; simp at h
  | some e =>
    have hmem := List.mem_of_find?_eq_some hf
    have hpred := List.find?_some hf
    obtain ⟨a, b, t0⟩ := e
    simp only [Bool.and_eq_true, decide_eq_true_eq] at hpred
    unfold ResourceAllocationGraph.adjList
    rw [List.mem_filterMap]
    exact ⟨(a, b, t0), hmem, by simp [hpred.1, hpred.2]⟩

theorem two_le_length_of_two_mem {α : Type} {l : List α} {x y : α}
    (hx : x ∈ l) (hy : y ∈ l) (hxy : x ≠ y) : 2 ≤ l.length := by
  cases l with
  | nil => simp at hx
  | cons a rest =>
    cases rest with
    | nil =>
      simp only [List.mem_singleton] at hx hy
      exact absurd (hx.trans hy.symm) hxy
    | cons b t => simp only [List.length_cons]; omega

theorem two_cycle_mem_cycleSearch {α : Type} [DecidableEq α]
    (adjf : α → List α) (low : α → Bool) (a b : α) (k : Nat)
    (hba : b ≠ a) (hlow : low b = false)
    (h1 : b ∈ adjf a) (h2 : a ∈ adjf b) :
    [a, b] ∈ ResourceAllocationGraph.cycleSearch adjf low a (k + 2) a [a] := by
  have hcb : ([a].contains b) = false := by simp [hba]
  rw [show k + 2 = Nat.succ (Nat.succ k) from rfl]
  simp only [ResourceAllocationGraph.cycleSearch]
  rw [List.mem_flatMap]
  refine ⟨b, h1, ?_⟩
  simp only [if_neg hba, hcb, hlow, Bool.or_self, Bool.false_eq_true, if_false]
  rw [List.mem_flatMap]
  refine ⟨a, h2, ?_⟩
  simp

theorem mem_simpleCyclesAux_of_suffix {α : Type} [DecidableEq α]
    (g : ResourceAllocationGraph α) :
    ∀ (pre : List α) (post : List α) (a : α) (i : Nat) (c : List α),
      c ∈ ResourceAllocationGraph.cycleSearch (ResourceAllocationGraph.adjList g)
        (fun v => decide (g.nodes.indexOf v < i + pre.length)) a
        g.nodes.length a [a] →
      c ∈ ResourceAllocationGraph.simpleCyclesAux g i (pre ++ a :: post) := by
  intro pre
  induction pre with
  | nil =>
    intro post a i c hc
    simp only [List.nil_append, ResourceAllocationGraph.simpleCyclesAux]
    apply List.mem_append_left
    simpa using hc
  | cons x rest ih =>
    intro post a i c hc
    simp only [List.cons_append, ResourceAllocationGraph.simpleCyclesAux]
    apply List.mem_append_right
    apply ih post a (i + 1) c
    have harith : i + (x :: rest).length = (i + 1) + rest.length := by
      simp only [List.length_cons]; omega
    rw [harith] at hc
    exact hc

theorem two_cycle_mem_simpleCycles {α : Type} [DecidableEq α]
    (g : ResourceAllocationGraph α) (a b : α)
    (ha : a ∈ g.nodes) (hb : b ∈ g.nodes) (hba : b ≠ a)
    (hidx : g.nodes.indexOf a < g.nodes.indexOf b)
    (h1 : b ∈ ResourceAllocationGraph.adjList g a)
    (h2 : a ∈ ResourceAllocationGraph.adjList g b) :
    [a, b] ∈ ResourceAllocationGraph.simpleCycles g := by
  have hia : g.nodes.indexOf a < g.nodes.length := List.indexOf_lt_length.2 ha
  have hlow : decide (g.nodes.indexOf b < g.nodes.indexOf a) = false := by
    rw [decide_eq_false_iff_not]; omega
  have hlen2 : 2 ≤ g.nodes.length :=
    two_le_length_of_two_mem ha hb (fun e => hba e.symm)
  obtain ⟨k, hk⟩ : ∃ k, g.nodes.length = k + 2 := ⟨g.nodes.length - 2, by omega⟩
  have hstep := two_cycle_mem_cycleSearch (ResourceAllocationGraph.adjList g)
    (fun v => decide (g.nodes.indexOf v < g.nodes.indexOf a)) a b k hba hlow h1 h2
  have hlen_take : (g.nodes.take (g.nodes.indexOf a)).length = g.nodes.indexOf a := by
    rw [List.length_take]; omega
  have hsplit : g.nodes
      = g.nodes.take (g.nodes.indexOf a) ++ a :: g.nodes.drop (g.nodes.indexOf a + 1) := by
    conv_lhs => rw [← List.take_append_drop (g.nodes.indexOf a) g.nodes]
    rw [List.drop_eq_getElem_cons hia, List.getElem_indexOf hia]
  show [a, b] ∈ ResourceAllocationGraph.simpleCyclesAux g 0 g.nodes
  rw [hsplit]
  apply mem_simpleCyclesAux_of_suffix
  rw [hlen_take]
  simp only [Nat.zero_add]
  rw [← hk] at hstep
  exact hstep

theorem isAlternating_two_cycle {α : Type} [DecidableEq α]
    (g : ResourceAllocationGraph α) (p r : α)
    (hp : p ∈ g.processes) (hr : r ∈ g.resources)
    (hpr : p ∉ g.resources) (hrp : r ∉ g.processes) :
    ResourceAllocationGraph.isAlternating g [p, r] = true ∧
    ResourceAllocationGraph.isAlternating g [r, p] = true := by
  constructor <;>
    simp [ResourceAllocationGraph.isAlternating, hp, hr, hpr, hrp]

/-- C9: in any well-formed graph where resource `r` is allocated to process
`p` (allocation edge `r → p`) and `p` also requests `r` back (request edge
`p → r`), `detect_deadlock` returns true, and among the reported deadlock
cycles is the 2-node alternating cycle on `p` and `r`. -/
theorem selfRequest_is_deadlock {α : Type} [DecidableEq α]
    (g : ResourceAllocationGraph α) (p r : α) (hwf : RAGWF g)
    (hp : p ∈ g.processes) (hr : r ∈ g.resources)
    (hpr : p ∉ g.resources) (hrp : r ∉ g.processes)
    (halloc : ResourceAllocationGraph.edgeType g r p = some EdgeType.allocation)
    (hreq : ResourceAllocationGraph.edgeType g p r = some EdgeType.request) :
    (ResourceAllocationGraph.detect_deadlock g).1 = true ∧
    ∃ c ∈ (ResourceAllocationGraph.detect_deadlock g).2,
      c.length = 2 ∧ p ∈ c ∧ r ∈ c := by
  obtain ⟨hnd, hpn, hrn⟩ := hwf
  have hne : p ≠ r := fun h => hpr (h ▸ hr)
  have hpnode : p ∈ g.nodes := hpn p hp
  have hrnode : r ∈ g.nodes := hrn r hr
  have hadj1 : p ∈ ResourceAllocationGraph.adjList g r := mem_adjList_of_edgeType halloc
  have hadj2 : r ∈ ResourceAllocationGraph.adjList g p := mem_adjList_of_edgeType hreq
  have hidx_ne : g.nodes.indexOf p ≠ g.nodes.indexOf r :=
    fun h => hne ((List.indexOf_inj hpnode hrnode).1 h)
  have halts := isAlternating_two_cycle g p r hp hr hpr hrp
  have key : ∃ c, c ∈ ResourceAllocationGraph.simpleCycles g ∧
      ResourceAllocationGraph.isAlternating g c = true ∧
      c.length = 2 ∧ p ∈ c ∧ r ∈ c := by
    rcases Nat.lt_or_ge (g.nodes.indexOf p) (g.nodes.indexOf r) with hlt | hge
    · refine ⟨[p, r], ?_, halts.1, rfl, by simp, by simp⟩
      exact two_cycle_mem_simpleCycles g p r hpnode hrnode hne.symm hlt hadj2 hadj1
    · have hlt : g.nodes.indexOf r < g.nodes.indexOf p := by omega
      refine ⟨[r, p], ?_, halts.2, rfl, by simp, by simp⟩
      exact two_cycle_mem_simpleCycles g r p hrnode hpnode hne hlt hadj1 hadj2
  obtain ⟨c, hcyc, halt, hlen, hpc, hrc⟩ := key
  have hmem : c ∈ (ResourceAllocationGraph.simpleCycles g).filter
      (fun c => ResourceAllocationGraph.isAlternating g c) :=
    List.mem_filter.2 ⟨hcyc, halt⟩
  constructor
  · simp only [ResourceAllocationGraph.detect_deadlock, decide_eq_true_eq]
    exact List.length_pos.2 (List.ne_nil_of_mem hmem)
  · exact ⟨c, hmem, hlen, hpc, hrc⟩

/-- Witness for C9: the two-node self-request instance (process 1 holds
resource 2 and requests it back) is reported as a deadlock. -/
theorem selfRequest_is_deadlock_witness :
    (ResourceAllocationGraph.detect_deadlock selfRequestGraph).1 = true ∧
    ∃ c ∈ (ResourceAllocationGraph.detect_deadlock selfRequestGraph).2,
      c.length = 2 ∧ 1 ∈ c ∧ 2 ∈ c :=
  selfRequest_is_deadlock selfRequestGraph 1 2 (by decide) (by decide) (by decide)
    (by decide) (by decide) (by decide) (by decide)
